import Mathlib

/-!
Verification of the linear-regression-emission HMM EM step
(dynamax/hmm/models/linreg_hmm.py), the parameter constrain/unconstrain
round trip (dynamax/parameters.py) and the blocked Gibbs sampler for
linear-Gaussian state-space models
(ssm_jax/linear_gaussian_ssm/blocked_gibbs.py).

Arrays are embedded as Mathlib matrices over ℚ (exact arithmetic in place
of floating point).  External dependencies of the repository (jax PRNG
keys, tensorflow-probability distribution objects, sklearn KMeans) are
abstracted as parameters of the development; everything implemented in the
repository itself is translated directly.
-/

open Matrix

/-! ### Basic matrix helpers (jnp.hstack / jnp.vstack / jnp.block) -/

/-- Horizontal stacking of two matrices, `jnp.hstack((A, B))`. -/
def hstack {r c₁ c₂ : ℕ} (A : Matrix (Fin r) (Fin c₁) ℚ) (B : Matrix (Fin r) (Fin c₂) ℚ) :
    Matrix (Fin r) (Fin c₁ ⊕ Fin c₂) ℚ :=
  Matrix.of fun i => Sum.elim (A i) (B i)

/-- Vertical stacking of two matrices, `jnp.vstack((A, B))` / a one-column `jnp.block`. -/
def vstack {r₁ r₂ c : ℕ} (A : Matrix (Fin r₁) (Fin c) ℚ) (B : Matrix (Fin r₂) (Fin c) ℚ) :
    Matrix (Fin r₁ ⊕ Fin r₂) (Fin c) ℚ :=
  Matrix.of (Sum.elim A B)

/-- Positive semi-definiteness over ℚ: symmetric with nonnegative quadratic form. -/
def IsPSD {ι : Type} [Fintype ι] (M : Matrix ι ι ℚ) : Prop :=
  M.transpose = M ∧ ∀ v : ι → ℚ, 0 ≤ v ⬝ᵥ M.mulVec v

/-- Computable matrix inverse over ℚ (agrees with the Mathlib matrix inverse). -/
def qinv {ι : Type} [Fintype ι] [DecidableEq ι] (A : Matrix ι ι ℚ) : Matrix ι ι ℚ :=
  (A.det)⁻¹ • A.adjugate

/-- Linear solve `jnp.linalg.solve(A, B)`, modelled as multiplication by the inverse. -/
def matsolve {ι : Type} {c : ℕ} [Fintype ι] [DecidableEq ι]
    (A : Matrix ι ι ℚ) (B : Matrix ι (Fin c) ℚ) : Matrix ι (Fin c) ℚ :=
  qinv A * B

theorem qinv_eq_inv {ι : Type} [Fintype ι] [DecidableEq ι] (A : Matrix ι ι ℚ) :
    qinv A = A⁻¹ := by
  rw [Matrix.inv_def, Ring.inverse_eq_inv]
  rfl

theorem mul_qinv_of_isUnit {ι : Type} [Fintype ι] [DecidableEq ι]
    (A : Matrix ι ι ℚ) (h : IsUnit A.det) : A * qinv A = 1 := by
  rw [qinv_eq_inv]
  exact A.mul_nonsing_inv h

/-! ### Sufficient statistics of the linear-regression HMM
(dynamax/hmm/models/linreg_hmm.py).  `n` is `covariate_dim`, `d` is
`emission_dim`, `K` is `num_states`, `T` the number of timesteps. -/

/-- Per-state sufficient statistics of the linear-regression HMM
(the entries of the dict built in `_compute_expected_suff_stats`). -/
structure SuffStats (n d : ℕ) where
  sum_w : ℚ
  sum_x : Fin n → ℚ
  sum_y : Fin d → ℚ
  sum_xxT : Matrix (Fin n) (Fin n) ℚ
  sum_xyT : Matrix (Fin n) (Fin d) ℚ
  sum_yyT : Matrix (Fin d) (Fin d) ℚ

/-- Function `_compute_expected_suff_stats`: the einsum accumulation of weighted sums
and weighted second moments, per state `k`. -/
def compute_expected_suff_stats {T K n d : ℕ}
    (expected_states : Matrix (Fin T) (Fin K) ℚ)
    (covariates : Matrix (Fin T) (Fin n) ℚ)
    (emissions : Matrix (Fin T) (Fin d) ℚ) (k : Fin K) : SuffStats n d where
  sum_w := ∑ t, expected_states t k
  sum_x := fun i => ∑ t, expected_states t k * covariates t i
  sum_y := fun i => ∑ t, expected_states t k * emissions t i
  sum_xxT := Matrix.of fun i j => ∑ t, expected_states t k * covariates t i * covariates t j
  sum_xyT := Matrix.of fun i j => ∑ t, expected_states t k * covariates t i * emissions t j
  sum_yyT := Matrix.of fun i j => ∑ t, expected_states t k * emissions t i * emissions t j

/-- The block Gram matrix `sum_x1x1T = [[sum_xxT, sum_x], [sum_x^T, sum_w]]`
built by `_single_m_step` for the covariates augmented with a constant-1 bias
feature. -/
def sum_x1x1T {n d : ℕ} (s : SuffStats n d) : Matrix (Fin n ⊕ Fin 1) (Fin n ⊕ Fin 1) ℚ :=
  Matrix.fromBlocks s.sum_xxT
    (Matrix.of fun i _ => s.sum_x i)
    (Matrix.of fun _ j => s.sum_x j)
    (Matrix.of fun _ _ => s.sum_w)

/-- The stacked target `sum_x1yT = [sum_xyT; sum_y]` built by `_single_m_step`. -/
def sum_x1yT {n d : ℕ} (s : SuffStats n d) : Matrix (Fin n ⊕ Fin 1) (Fin d) ℚ :=
  vstack s.sum_xyT (Matrix.of fun _ j => s.sum_y j)

/-- Function `_single_m_step`: solve the normal equations for the augmented weight
matrix `Ab`, split it into slope and intercept, and form the symmetrized
residual covariance. -/
def single_m_step {n d : ℕ} (s : SuffStats n d) :
    Matrix (Fin d) (Fin n) ℚ × (Fin d → ℚ) × Matrix (Fin d) (Fin d) ℚ :=
  let Ab := (matsolve (sum_x1x1T s) (sum_x1yT s)).transpose
  let Sigma := (1 / s.sum_w) • (s.sum_yyT - Ab * sum_x1yT s)
  let Sigma2 := ((1 : ℚ) / 2) • (Sigma + Sigma.transpose)
  (Matrix.of fun i j => Ab i (Sum.inl j), fun i => Ab i (Sum.inr 0), Sigma2)

/-- Function `_m_step_emissions`: vmap of `_single_m_step` over the states. -/
def m_step_emissions {K n d : ℕ} (stats : Fin K → SuffStats n d) :
    Fin K → Matrix (Fin d) (Fin n) ℚ × (Fin d → ℚ) × Matrix (Fin d) (Fin d) ℚ :=
  fun k => single_m_step (stats k)

/-- Recombination of the returned slope (all but the last column of `Ab`)
and intercept (the last column of `Ab`) into the augmented coefficient matrix. -/
def recombine {n d : ℕ} (W : Matrix (Fin d) (Fin n) ℚ) (b : Fin d → ℚ) :
    Matrix (Fin d) (Fin n ⊕ Fin 1) ℚ :=
  Matrix.of fun i => Sum.elim (W i) (fun _ => b i)

/-! ### Quadratic-form helper lemmas -/

theorem quad_smul {ι : Type} [Fintype ι] (c : ℚ) (M : Matrix ι ι ℚ) (v : ι → ℚ) :
    v ⬝ᵥ (c • M).mulVec v = c * (v ⬝ᵥ M.mulVec v) := by
  rw [Matrix.smul_mulVec_assoc, dotProduct_smul, smul_eq_mul]

theorem quad_transpose {ι : Type} [Fintype ι] (M : Matrix ι ι ℚ) (v : ι → ℚ) :
    v ⬝ᵥ M.transpose.mulVec v = v ⬝ᵥ M.mulVec v := by
  rw [Matrix.mulVec_transpose, dotProduct_comm, ← Matrix.dotProduct_mulVec]

theorem quad_sub {ι : Type} [Fintype ι] (A B : Matrix ι ι ℚ) (v : ι → ℚ) :
    v ⬝ᵥ (A - B).mulVec v = v ⬝ᵥ A.mulVec v - v ⬝ᵥ B.mulVec v := by
  rw [Matrix.sub_mulVec, dotProduct_sub]

/-- Gram matrices are positive semi-definite. -/
theorem isPSD_gram {m : ℕ} {ι : Type} [Fintype ι] [DecidableEq ι]
    (A : Matrix (Fin m) ι ℚ) : IsPSD (A.transpose * A) := by
  constructor
  · rw [Matrix.transpose_mul, Matrix.transpose_transpose]
  · intro v
    rw [← Matrix.mulVec_mulVec, Matrix.dotProduct_mulVec, Matrix.vecMul_transpose]
    exact Finset.sum_nonneg fun i _ => mul_self_nonneg _

/-! ### Weighted second-moment matrices -/

/-- The weighted cross-moment matrix `∑_t w t • φ_t ψ_tᵀ` of two families of
feature vectors; every sufficient-statistics block of the E-step reduction
is of this form. -/
def wmom {T : ℕ} {ι ι' : Type} (w : Fin T → ℚ)
    (φ : Fin T → ι → ℚ) (ψ : Fin T → ι' → ℚ) : Matrix ι ι' ℚ :=
  Matrix.of fun i j => ∑ t, w t * φ t i * ψ t j

theorem wmom_mulVec {T : ℕ} {ι ι' : Type} [Fintype ι'] (w : Fin T → ℚ)
    (φ : Fin T → ι → ℚ) (ψ : Fin T → ι' → ℚ) (v : ι' → ℚ) :
    (wmom w φ ψ).mulVec v = fun i => ∑ t, w t * φ t i * (ψ t ⬝ᵥ v) := by
  funext i
  simp only [Matrix.mulVec, dotProduct, wmom, Matrix.of_apply]
  calc ∑ j, (∑ t, w t * φ t i * ψ t j) * v j
      = ∑ j, ∑ t, w t * φ t i * (ψ t j * v j) := by
        simp only [Finset.sum_mul, mul_assoc]
    _ = ∑ t, ∑ j, w t * φ t i * (ψ t j * v j) := Finset.sum_comm
    _ = ∑ t, w t * φ t i * ∑ j, ψ t j * v j := by
        simp only [Finset.mul_sum]

theorem wmom_quad {T : ℕ} {ι ι' : Type} [Fintype ι] [Fintype ι'] (w : Fin T → ℚ)
    (φ : Fin T → ι → ℚ) (ψ : Fin T → ι' → ℚ) (u : ι → ℚ) (v : ι' → ℚ) :
    u ⬝ᵥ (wmom w φ ψ).mulVec v = ∑ t, w t * (u ⬝ᵥ φ t) * (ψ t ⬝ᵥ v) := by
  have key : ∀ c : Fin T → ℚ,
      ∑ i, u i * ∑ t, w t * φ t i * c t = ∑ t, w t * (∑ i, u i * φ t i) * c t := by
    intro c
    calc ∑ i, u i * ∑ t, w t * φ t i * c t
        = ∑ i, ∑ t, u i * (w t * φ t i * c t) := by
          simp only [Finset.mul_sum]
      _ = ∑ t, ∑ i, u i * (w t * φ t i * c t) := Finset.sum_comm
      _ = ∑ t, w t * (∑ i, u i * φ t i) * c t := by
          refine Finset.sum_congr rfl fun t _ => ?_
          rw [Finset.mul_sum, Finset.sum_mul]
          exact Finset.sum_congr rfl fun i _ => by ring
  rw [wmom_mulVec]
  simpa only [dotProduct] using key fun t => ∑ j, ψ t j * v j

/-- The covariates augmented with the constant-1 bias feature. -/
def augx {T n : ℕ} (x : Matrix (Fin T) (Fin n) ℚ) : Matrix (Fin T) (Fin n ⊕ Fin 1) ℚ :=
  hstack x (Matrix.of fun _ _ => 1)

theorem sum_x1x1T_of_data {T K n d : ℕ} (E : Matrix (Fin T) (Fin K) ℚ)
    (x : Matrix (Fin T) (Fin n) ℚ) (y : Matrix (Fin T) (Fin d) ℚ) (k : Fin K) :
    sum_x1x1T (compute_expected_suff_stats E x y k)
      = wmom (fun t => E t k) (augx x) (augx x) := by
  ext a b
  cases a <;> cases b <;>
    simp [sum_x1x1T, wmom, compute_expected_suff_stats, augx, hstack,
      Matrix.fromBlocks, mul_one]

theorem sum_x1yT_of_data {T K n d : ℕ} (E : Matrix (Fin T) (Fin K) ℚ)
    (x : Matrix (Fin T) (Fin n) ℚ) (y : Matrix (Fin T) (Fin d) ℚ) (k : Fin K) :
    sum_x1yT (compute_expected_suff_stats E x y k)
      = wmom (fun t => E t k) (augx x) (Matrix.of y) := by
  ext a j
  cases a <;>
    simp [sum_x1yT, wmom, compute_expected_suff_stats, augx, hstack, vstack,
      mul_one]

theorem sum_yyT_of_data {T K n d : ℕ} (E : Matrix (Fin T) (Fin K) ℚ)
    (x : Matrix (Fin T) (Fin n) ℚ) (y : Matrix (Fin T) (Fin d) ℚ) (k : Fin K) :
    (compute_expected_suff_stats E x y k).sum_yyT
      = wmom (fun t => E t k) (Matrix.of y) (Matrix.of y) := rfl

/-! ### Claim C8: the E-step sufficient statistics are weighted sums -/

/-- C8: for every expected-states weight matrix, covariates and emissions,
the expected sufficient statistics equal the weighted sums over time:
`sum_w k` is the total state weight, `sum_x k`/`sum_y k` the weighted sums of
covariates/emissions, and `sum_xxT`/`sum_xyT`/`sum_yyT` the weighted
second-moment (outer-product) sums. -/
theorem expected_suff_stats_weighted_sums {T K n d : ℕ}
    (E : Matrix (Fin T) (Fin K) ℚ) (x : Matrix (Fin T) (Fin n) ℚ)
    (y : Matrix (Fin T) (Fin d) ℚ) (k : Fin K) :
    (compute_expected_suff_stats E x y k).sum_w = ∑ t, E t k ∧
    (compute_expected_suff_stats E x y k).sum_x = ∑ t, E t k • x t ∧
    (compute_expected_suff_stats E x y k).sum_y = ∑ t, E t k • y t ∧
    (compute_expected_suff_stats E x y k).sum_xxT
      = ∑ t, E t k • Matrix.vecMulVec (x t) (x t) ∧
    (compute_expected_suff_stats E x y k).sum_xyT
      = ∑ t, E t k • Matrix.vecMulVec (x t) (y t) ∧
    (compute_expected_suff_stats E x y k).sum_yyT
      = ∑ t, E t k • Matrix.vecMulVec (y t) (y t) := by
  refine ⟨rfl, ?_, ?_, ?_, ?_, ?_⟩ <;>
  · ext
    simp [compute_expected_suff_stats, Finset.sum_apply, Matrix.sum_apply,
      Matrix.vecMulVec_apply, mul_assoc]

/-! ### Claim C2: the M-step solves the normal equations -/

/-- C2: for every per-state sufficient-statistics input (with nonsingular
block Gram matrix), the slope `W_k` and intercept `b_k` returned by the
emissions M-step, recombined into the augmented coefficient matrix `Ab`
(slope in all but the last column, intercept in the last column), solve the
normal equations against the block Gram matrix `[[sum_xxT, sum_x],
[sum_x^T, sum_w]]` with stacked target `[sum_xyT; sum_y]`. -/
theorem m_step_normal_equations {n d : ℕ} (s : SuffStats n d)
    (h : IsUnit (sum_x1x1T s).det) :
    sum_x1x1T s * (recombine (single_m_step s).1 (single_m_step s).2.1).transpose
      = sum_x1yT s := by
  have hr : recombine (single_m_step s).1 (single_m_step s).2.1
      = (matsolve (sum_x1x1T s) (sum_x1yT s)).transpose := by
    funext i a
    cases a with
    | inl j => rfl
    | inr j =>
      have hj : j = 0 := Subsingleton.elim j 0
      rw [hj]
      rfl
  rw [hr, Matrix.transpose_transpose, matsolve, ← Matrix.mul_assoc,
    mul_qinv_of_isUnit _ h, Matrix.one_mul]

/-- Concrete sufficient statistics whose block Gram matrix is the identity. -/
def c2stats : SuffStats 1 1 where
  sum_w := 1
  sum_x := fun _ => 0
  sum_y := fun _ => 7
  sum_xxT := 1
  sum_xyT := Matrix.of fun _ _ => 5
  sum_yyT := Matrix.of fun _ _ => 9

theorem c2stats_gram : sum_x1x1T c2stats = 1 := by
  ext a b
  cases a <;> cases b <;>
    simp [sum_x1x1T, c2stats, Matrix.one_apply, Sum.inl.injEq, Sum.inr.injEq,
      eq_iff_true_of_subsingleton]

/-- Witness for C2 at a concrete input. -/
theorem m_step_normal_equations_witness :
    IsUnit (sum_x1x1T c2stats).det ∧
    sum_x1x1T c2stats
        * (recombine (single_m_step c2stats).1 (single_m_step c2stats).2.1).transpose
      = sum_x1yT c2stats :=
  ⟨by rw [c2stats_gram]; simp,
   m_step_normal_equations c2stats (by rw [c2stats_gram]; simp)⟩

/-! ### Claim C3: the symmetrized residual covariance -/

/-- The augmented coefficient matrix `Ab` computed inside `_single_m_step`. -/
def m_step_Ab {n d : ℕ} (s : SuffStats n d) : Matrix (Fin d) (Fin n ⊕ Fin 1) ℚ :=
  (matsolve (sum_x1x1T s) (sum_x1yT s)).transpose

/-- The raw residual covariance `Sigma = (sum_yyT - Ab @ sum_x1yT) / sum_w`
computed inside `_single_m_step` before symmetrization. -/
def m_step_Sigma_raw {n d : ℕ} (s : SuffStats n d) : Matrix (Fin d) (Fin d) ℚ :=
  (1 / s.sum_w) • (s.sum_yyT - m_step_Ab s * sum_x1yT s)

theorem single_m_step_cov {n d : ℕ} (s : SuffStats n d) :
    (single_m_step s).2.2
      = ((1 : ℚ) / 2) • (m_step_Sigma_raw s + (m_step_Sigma_raw s).transpose) := rfl

/-- Sufficient statistics with positive weight that do not come from any
data set (their `sum_yyT` block is negative definite). -/
def c3bad : SuffStats 0 1 where
  sum_w := 1
  sum_x := fun i => i.elim0
  sum_y := fun _ => 0
  sum_xxT := Matrix.of fun i _ => i.elim0
  sum_xyT := Matrix.of fun i _ => i.elim0
  sum_yyT := Matrix.of fun _ _ => -1

theorem c3bad_target : sum_x1yT c3bad = 0 := by
  ext a j
  cases a with
  | inl i => exact i.elim0
  | inr i => simp [sum_x1yT, c3bad, vstack]

theorem c3bad_cov : (single_m_step c3bad).2.2 = Matrix.of fun _ _ => (-1 : ℚ) := by
  rw [single_m_step_cov]
  have h1 : m_step_Sigma_raw c3bad = Matrix.of fun _ _ => (-1 : ℚ) := by
    unfold m_step_Sigma_raw
    rw [c3bad_target, Matrix.mul_zero, sub_zero]
    ext i j
    simp [c3bad]
  rw [h1]
  ext i j
  simp [Matrix.transpose_apply]
  norm_num

/-- C3 counterexample: a sufficient-statistics input with strictly positive
weight for which the returned residual covariance is not positive
semi-definite; positivity of `sum_w` alone does not make the M-step output a
PSD matrix. -/
theorem m_step_cov_psd_counterexample :
    0 < c3bad.sum_w ∧ ¬ IsPSD (single_m_step c3bad).2.2 := by
  refine ⟨by norm_num [c3bad], ?_⟩
  rw [c3bad_cov]
  rintro ⟨-, hq⟩
  have h := hq fun _ => 1
  simp [dotProduct, Matrix.mulVec] at h
  linarith

/-- Core positivity argument: when the sufficient statistics are weighted
moments of actual data with nonnegative weights, positive total weight and a
nonsingular block Gram matrix, the symmetrized residual covariance is PSD. -/
theorem m_step_cov_psd_aux {T n d : ℕ} (w : Fin T → ℚ)
    (x : Matrix (Fin T) (Fin n) ℚ) (y : Matrix (Fin T) (Fin d) ℚ)
    (s : SuffStats n d)
    (hG : sum_x1x1T s = wmom w (augx x) (augx x))
    (hC : sum_x1yT s = wmom w (augx x) (Matrix.of y))
    (hY : s.sum_yyT = wmom w (Matrix.of y) (Matrix.of y))
    (hw : ∀ t, 0 ≤ w t) (hsw : 0 < s.sum_w)
    (hdet : IsUnit (sum_x1x1T s).det) :
    IsPSD (single_m_step s).2.2 := by
  constructor
  · rw [single_m_step_cov, Matrix.transpose_smul, Matrix.transpose_add,
      Matrix.transpose_transpose, add_comm]
  · intro v
    set a : (Fin n ⊕ Fin 1) → ℚ := qinv (sum_x1x1T s) *ᵥ (sum_x1yT s *ᵥ v) with ha
    have hGa : sum_x1x1T s *ᵥ a = sum_x1yT s *ᵥ v := by
      rw [ha, Matrix.mulVec_mulVec, mul_qinv_of_isUnit _ hdet, Matrix.one_mulVec]
    have hq1 : v ⬝ᵥ s.sum_yyT *ᵥ v
        = ∑ t, w t * (Matrix.of y t ⬝ᵥ v) * (Matrix.of y t ⬝ᵥ v) := by
      rw [hY, wmom_quad]
      exact Finset.sum_congr rfl fun t _ => by rw [dotProduct_comm]
    have hq2 : a ⬝ᵥ (sum_x1yT s *ᵥ v)
        = ∑ t, w t * (augx x t ⬝ᵥ a) * (Matrix.of y t ⬝ᵥ v) := by
      rw [hC, wmom_quad]
      exact Finset.sum_congr rfl fun t _ => by rw [dotProduct_comm]
    have hq3 : a ⬝ᵥ (sum_x1yT s *ᵥ v)
        = ∑ t, w t * (augx x t ⬝ᵥ a) * (augx x t ⬝ᵥ a) := by
      rw [← hGa, hG, wmom_quad]
      exact Finset.sum_congr rfl fun t _ => by rw [dotProduct_comm]
    have hAbC : v ⬝ᵥ (m_step_Ab s * sum_x1yT s) *ᵥ v = a ⬝ᵥ (sum_x1yT s *ᵥ v) := by
      rw [← Matrix.mulVec_mulVec, Matrix.dotProduct_mulVec]
      congr 1
      simp only [m_step_Ab, matsolve]
      rw [Matrix.vecMul_transpose, ← Matrix.mulVec_mulVec]
    have key : v ⬝ᵥ (s.sum_yyT - m_step_Ab s * sum_x1yT s) *ᵥ v
        = ∑ t, w t * ((Matrix.of y t ⬝ᵥ v) - (augx x t ⬝ᵥ a)) ^ 2 := by
      have expand : ∑ t, w t * ((Matrix.of y t ⬝ᵥ v) - (augx x t ⬝ᵥ a)) ^ 2
          = (∑ t, w t * (Matrix.of y t ⬝ᵥ v) * (Matrix.of y t ⬝ᵥ v))
            - 2 * (∑ t, w t * (augx x t ⬝ᵥ a) * (Matrix.of y t ⬝ᵥ v))
            + ∑ t, w t * (augx x t ⬝ᵥ a) * (augx x t ⬝ᵥ a) := by
        rw [Finset.mul_sum, ← Finset.sum_sub_distrib, ← Finset.sum_add_distrib]
        exact Finset.sum_congr rfl fun t _ => by ring
      rw [quad_sub, hAbC, expand, ← hq2, ← hq3, hq1]
      ring
    have hMnn : 0 ≤ v ⬝ᵥ (s.sum_yyT - m_step_Ab s * sum_x1yT s) *ᵥ v := by
      rw [key]
      exact Finset.sum_nonneg fun t _ => mul_nonneg (hw t) (sq_nonneg _)
    rw [single_m_step_cov, quad_smul, Matrix.add_mulVec, dotProduct_add,
      quad_transpose]
    simp only [m_step_Sigma_raw]
    rw [quad_smul]
    have h1 : 0 ≤ 1 / s.sum_w := le_of_lt (by positivity)
    have h2 := mul_nonneg h1 hMnn
    linarith

/-- C3 (amended): for sufficient statistics computed by the E-step reduction
from data with nonnegative state weights, strictly positive `sum_w k` and a
nonsingular block Gram matrix, the residual covariance returned by the
emissions M-step equals the symmetrization `0.5*(Sigma + Sigma^T)` of
`Sigma = (sum_yyT - Ab @ [sum_xyT; sum_y]) / sum_w k`, and is symmetric and
positive semi-definite. -/
theorem m_step_cov_symmetrized_psd {T K n d : ℕ} (E : Matrix (Fin T) (Fin K) ℚ)
    (x : Matrix (Fin T) (Fin n) ℚ) (y : Matrix (Fin T) (Fin d) ℚ) (k : Fin K)
    (hw : ∀ t, 0 ≤ E t k)
    (hsw : 0 < (compute_expected_suff_stats E x y k).sum_w)
    (hdet : IsUnit (sum_x1x1T (compute_expected_suff_stats E x y k)).det) :
    (single_m_step (compute_expected_suff_stats E x y k)).2.2
      = ((1 : ℚ) / 2) • (m_step_Sigma_raw (compute_expected_suff_stats E x y k)
          + (m_step_Sigma_raw (compute_expected_suff_stats E x y k)).transpose)
    ∧ IsPSD (single_m_step (compute_expected_suff_stats E x y k)).2.2 :=
  ⟨rfl,
   m_step_cov_psd_aux (fun t => E t k) x y _
     (sum_x1x1T_of_data E x y k) (sum_x1yT_of_data E x y k)
     (sum_yyT_of_data E x y k) hw hsw hdet⟩

/-- Concrete E-step inputs whose per-state block Gram matrix is the identity. -/
def c3E : Matrix (Fin 2) (Fin 1) ℚ := Matrix.of fun _ _ => 1 / 2

/-- Concrete covariates for the C3 witness. -/
def c3x : Matrix (Fin 2) (Fin 1) ℚ := Matrix.of fun t _ => if t = 0 then 1 else -1

/-- Concrete emissions for the C3 witness. -/
def c3y : Matrix (Fin 2) (Fin 1) ℚ := Matrix.of fun t _ => if t = 0 then 2 else 3

theorem c3_gram : sum_x1x1T (compute_expected_suff_stats c3E c3x c3y 0) = 1 := by
  ext a b
  cases a <;> cases b <;>
    simp [sum_x1x1T, compute_expected_suff_stats, c3E, c3x, Matrix.one_apply,
      Fin.sum_univ_two, eq_iff_true_of_subsingleton]
  norm_num

theorem c3_sumw : (compute_expected_suff_stats c3E c3x c3y 0).sum_w = 1 := by
  simp [compute_expected_suff_stats, c3E, Fin.sum_univ_two]

/-- Witness for C3 at a concrete input. -/
theorem m_step_cov_symmetrized_psd_witness :
    IsPSD (single_m_step (compute_expected_suff_stats c3E c3x c3y 0)).2.2 :=
  (m_step_cov_symmetrized_psd c3E c3x c3y 0
    (fun t => by norm_num [c3E])
    (by rw [c3_sumw]; norm_num)
    (by rw [c3_gram]; simp)).2

/-! ### Parameter constrain/unconstrain round trip (dynamax/parameters.py) -/

/-- A tensorflow-probability bijector, abstracted as its forward and inverse
maps (calling the bijector applies `forward`). -/
structure Bijector (α : Type) where
  forward : α → α
  inverse : α → α

/-- Class `ParameterProperties`: trainability flag and optional constrainer bijector. -/
structure ParameterProperties (α : Type) where
  trainable : Bool := true
  constrainer : Option (Bijector α) := none

/-- Function `lax.stop_gradient` is the identity on values. -/
def stop_gradient {α : Type} (x : α) : α := x

/-- The per-leaf function of `to_unconstrained`: apply the inverse of the constrainer when a constrainer is registered. -/
def to_unc {α : Type} (value : α) (prop : ParameterProperties α) : α :=
  match prop.constrainer with
  | some c => c.inverse value
  | none => value

/-- Function `to_unconstrained`: `tree_map` of the per-leaf conversion over matching
parameter / property pytrees, modelled on the flattened lists of leaves. -/
def to_unconstrained {α : Type} (params : List α)
    (props : List (ParameterProperties α)) : List α :=
  List.zipWith to_unc params props

/-- The per-leaf function of `from_unconstrained`: apply the constrainer,
then `stop_gradient` when the parameter is not trainable. -/
def from_unc {α : Type} (unc_value : α) (prop : ParameterProperties α) : α :=
  let value := match prop.constrainer with
    | some c => c.forward unc_value
    | none => unc_value
  if prop.trainable then value else stop_gradient value

/-- Function `from_unconstrained`: `tree_map` of the per-leaf conversion over the
flattened leaf lists. -/
def from_unconstrained {α : Type} (unc_params : List α)
    (props : List (ParameterProperties α)) : List α :=
  List.zipWith from_unc unc_params props

/-- A registered constrainer round-trips: applying the bijector after its
inverse recovers the value. -/
def constrainer_roundtrip {α : Type} (prop : ParameterProperties α) : Prop :=
  ∀ v : α, (match prop.constrainer with
    | some c => c.forward (c.inverse v) = v
    | none => True)

theorem from_to_unc {α : Type} (a : α) (p : ParameterProperties α)
    (h : constrainer_roundtrip p) : from_unc (to_unc a p) p = a := by
  have ha := h a
  simp only [from_unc, to_unc, stop_gradient]
  cases hc : p.constrainer with
  | none =>
    simp only [hc]
    cases p.trainable <;> simp
  | some c =>
    simp only [constrainer_roundtrip, hc] at ha
    simp only [hc, ha]
    cases p.trainable <;> simp

/-- C5: converting parameters to unconstrained form with `to_unconstrained`
and back with `from_unconstrained` recovers the original parameter values,
provided every registered constrainer round-trips over its bijector and
inverse (the leaf lists matching in length). -/
theorem to_from_unconstrained_roundtrip {α : Type} (params : List α)
    (props : List (ParameterProperties α))
    (hlen : params.length ≤ props.length)
    (hrt : ∀ p ∈ props, constrainer_roundtrip p) :
    from_unconstrained (to_unconstrained params props) props = params := by
  induction params generalizing props with
  | nil => simp [from_unconstrained, to_unconstrained]
  | cons a as ih =>
    cases props with
    | nil => simp at hlen
    | cons p ps =>
      have h2 := ih ps (by simp only [List.length_cons] at hlen; omega)
        (fun q hq => hrt q (List.mem_cons_of_mem p hq))
      simp only [to_unconstrained, from_unconstrained, List.zipWith_cons_cons] at h2 ⊢
      rw [from_to_unc a p (hrt p (List.mem_cons_self p ps)), h2]

/-- A concrete property with a shift bijector as constrainer. -/
def c5prop : ParameterProperties ℚ :=
  { trainable := true, constrainer := some ⟨fun v => v + 1, fun v => v - 1⟩ }

/-- Witness for C5 at a concrete input. -/
theorem to_from_unconstrained_roundtrip_witness :
    from_unconstrained (to_unconstrained [(3 : ℚ)] [c5prop]) [c5prop] = [(3 : ℚ)] :=
  to_from_unconstrained_roundtrip [(3 : ℚ)] [c5prop] (by simp)
    (by
      intro p hp
      rw [List.mem_singleton.mp hp]
      intro v
      simp [c5prop])

/-! ### LinearRegressionHMM parameter initialization (emission part of
`LinearRegressionHMM.initialize`).  `Te` is the number of emission rows used
for K-Means, `K` = num_states, `d` = emission_dim, `n` = covariate_dim. -/

/-- The emission parameters produced by the initialization
(the emissions entry of params, with entries `weights`, `biases`, `covs`). -/
structure EmissionParams (K d n : ℕ) where
  weights : Fin K → Matrix (Fin d) (Fin n) ℚ
  biases : Fin K → Fin d → ℚ
  covs : Fin K → Matrix (Fin d) (Fin d) ℚ

/-- Python `str.lower`. -/
def str_lower (s : String) : String := ⟨s.data.map Char.toLower⟩

/-- The `default` lambda: use the user-supplied value if given, otherwise the
computed one. -/
def default_or {α : Type} (x : Option α) (x0 : α) : α := x.getD x0

/-- The emission part of `LinearRegressionHMM.initialize`.  The jax normal
draws for the two split keys and the sklearn KMeans cluster centers are
supplied as abstract inputs; a raised `Exception`/failed `assert` is
modelled as `Except.error`. -/
def emission_init {Te K d n : ℕ} (method : String)
    (normal_weights : Fin K → Matrix (Fin d) (Fin n) ℚ)
    (normal_biases : Fin K → Fin d → ℚ)
    (cluster_centers : Matrix (Fin Te) (Fin d) ℚ → Fin K → Fin d → ℚ)
    (emission_weights : Option (Fin K → Matrix (Fin d) (Fin n) ℚ))
    (emission_biases : Option (Fin K → Fin d → ℚ))
    (emission_covariances : Option (Fin K → Matrix (Fin d) (Fin d) ℚ))
    (emissions : Option (Matrix (Fin Te) (Fin d) ℚ)) :
    Except String (EmissionParams K d n) :=
  if str_lower method == "kmeans" then
    match emissions with
    | none => Except.error "Need emissions to initialize the model with K-Means!"
    | some e =>
      Except.ok
        { weights := default_or emission_weights fun _ => 0
          biases := default_or emission_biases (cluster_centers e)
          covs := default_or emission_covariances fun _ => 1 }
  else if str_lower method == "prior" then
    Except.ok
      { weights := default_or emission_weights fun k => ((1 : ℚ) / 100) • normal_weights k
        biases := default_or emission_biases normal_biases
        covs := default_or emission_covariances fun _ => 1 }
  else Except.error ("Invalid initialization method: " ++ method)

/-- C7 counterexample: the initialization method is selected by comparing
`method.lower()` to the string "kmeans", so the method name "k-means" is
rejected with an invalid-method error instead of running K-Means
initialization (even with emissions supplied). -/
theorem emission_init_kmeans_spelling_counterexample :
    emission_init "k-means"
      (fun _ : Fin 1 => (0 : Matrix (Fin 1) (Fin 1) ℚ))
      (fun _ : Fin 1 => fun _ : Fin 1 => (0 : ℚ))
      (fun _ : Matrix (Fin 1) (Fin 1) ℚ => fun _ _ => (0 : ℚ))
      none none none (some (0 : Matrix (Fin 1) (Fin 1) ℚ))
      = Except.error "Invalid initialization method: k-means" := rfl

/-- C7 (amended): method "prior" sets the emission weights to 0.01-scaled
normal draws, the biases to (unscaled) normal draws and the covariance of every state to the identity; method "kmeans" (so spelled) with emissions
supplied sets the biases to the K cluster centers of the raw emissions,
the weights to zero and the covariances to identity matrices. -/
theorem emission_init_policies {Te K d n : ℕ}
    (normal_weights : Fin K → Matrix (Fin d) (Fin n) ℚ)
    (normal_biases : Fin K → Fin d → ℚ)
    (cluster_centers : Matrix (Fin Te) (Fin d) ℚ → Fin K → Fin d → ℚ)
    (e : Matrix (Fin Te) (Fin d) ℚ) :
    emission_init "prior" normal_weights normal_biases cluster_centers
        none none none none
      = Except.ok ⟨fun k => ((1 : ℚ) / 100) • normal_weights k, normal_biases,
          fun _ => 1⟩ ∧
    emission_init "kmeans" normal_weights normal_biases cluster_centers
        none none none (some e)
      = Except.ok ⟨fun _ => 0, cluster_centers e, fun _ => 1⟩ := by
  exact ⟨rfl, rfl⟩

/-! ### Blocked Gibbs sampler for LGSSMs
(ssm_jax/linear_gaussian_ssm/blocked_gibbs.py).  `Dh` = hidden dimension,
`Dobs` = emission dimension, `Din` = input dimension and `T+1` the number of
timesteps.  The external dependencies (jax PRNG key splitting, the
NIW/MNIW distribution objects of ssm_jax.distributions with their
`log_prob`/`mode`/`sample` methods and posterior updates, and
`lgssm_posterior_sample` from ssm_jax.inference) are abstracted as the
fields of a `GibbsEnv`; everything in blocked_gibbs.py itself is translated
directly. -/

/-- Class `LGSSMParams` (from ssm_jax.inference): the parameters threaded through
the sampler. -/
structure LGSSMParams (Dh Dobs Din : ℕ) where
  initial_mean : Fin Dh → ℚ
  initial_covariance : Matrix (Fin Dh) (Fin Dh) ℚ
  dynamics_matrix : Matrix (Fin Dh) (Fin Dh) ℚ
  dynamics_input_weights : Matrix (Fin Dh) (Fin Din) ℚ
  dynamics_covariance : Matrix (Fin Dh) (Fin Dh) ℚ
  emission_matrix : Matrix (Fin Dobs) (Fin Dh) ℚ
  emission_input_weights : Matrix (Fin Dobs) (Fin Din) ℚ
  emission_covariance : Matrix (Fin Dobs) (Fin Dobs) ℚ

/-- The initial-state statistics tuple `(x[0], outer(x[0], x[0]), 1)`. -/
structure InitStats (Dh : ℕ) where
  x0 : Fin Dh → ℚ
  x0x0T : Matrix (Fin Dh) (Fin Dh) ℚ
  count : ℕ

/-- The dynamics statistics tuple `(sum_zpzpT, sum_zpxnT, sum_xnxnT, T-1)`. -/
structure DynStats (Dh Din : ℕ) where
  sum_zpzpT : Matrix (Fin Dh ⊕ Fin Din) (Fin Dh ⊕ Fin Din) ℚ
  sum_zpxnT : Matrix (Fin Dh ⊕ Fin Din) (Fin Dh) ℚ
  sum_xnxnT : Matrix (Fin Dh) (Fin Dh) ℚ
  count : ℕ

/-- The emission statistics tuple `(sum_zzT, sum_zyT, sum_yyT, T)`. -/
structure EmisStats (Dh Din Dobs : ℕ) where
  sum_zzT : Matrix (Fin Dh ⊕ Fin Din) (Fin Dh ⊕ Fin Din) ℚ
  sum_zyT : Matrix (Fin Dh ⊕ Fin Din) (Fin Dobs) ℚ
  sum_yyT : Matrix (Fin Dobs) (Fin Dobs) ℚ
  count : ℕ

/-- Function `sufficient_stats_from_sample`: reduce a sampled trajectory, the inputs
and the emissions to the three sufficient-statistics tuples. -/
def sufficient_stats_from_sample {Dh Din Dobs T : ℕ}
    (states : Matrix (Fin (T + 1)) (Fin Dh) ℚ)
    (inputs : Matrix (Fin (T + 1)) (Fin Din) ℚ)
    (emissions : Matrix (Fin (T + 1)) (Fin Dobs) ℚ) :
    InitStats Dh × DynStats Dh Din × EmisStats Dh Din Dobs :=
  let x := states
  let xp : Matrix (Fin T) (Fin Dh) ℚ := Matrix.of fun t => states t.castSucc
  let xn : Matrix (Fin T) (Fin Dh) ℚ := Matrix.of fun t => states t.succ
  let u := inputs
  let up : Matrix (Fin T) (Fin Din) ℚ := Matrix.of fun t => inputs t.castSucc
  let y := emissions
  let init_stats : InitStats Dh := ⟨x 0, Matrix.vecMulVec (x 0) (x 0), 1⟩
  let dynamics_stats : DynStats Dh Din :=
    ⟨Matrix.fromBlocks (xp.transpose * xp) (xp.transpose * up)
        (up.transpose * xp) (up.transpose * up),
      vstack (xp.transpose * xn) (up.transpose * xn),
      xn.transpose * xn, T⟩
  let emission_stats : EmisStats Dh Din Dobs :=
    ⟨Matrix.fromBlocks (x.transpose * x) (x.transpose * u)
        (u.transpose * x) (u.transpose * u),
      vstack (x.transpose * y) (u.transpose * y),
      y.transpose * y, T + 1⟩
  (init_stats, dynamics_stats, emission_stats)

/-- The first `Dh` columns of a coefficient matrix drawn from an MNIW
distribution (`FB[:, :D_hid]`). -/
def left_cols {r c₁ c₂ : ℕ} (M : Matrix (Fin r) (Fin c₁ ⊕ Fin c₂) ℚ) :
    Matrix (Fin r) (Fin c₁) ℚ :=
  Matrix.of fun i j => M i (Sum.inl j)

/-- The remaining columns of a coefficient matrix drawn from an MNIW
distribution (`FB[:, D_hid:]`). -/
def right_cols {r c₁ c₂ : ℕ} (M : Matrix (Fin r) (Fin c₁ ⊕ Fin c₂) ℚ) :
    Matrix (Fin r) (Fin c₂) ℚ :=
  Matrix.of fun i j => M i (Sum.inr j)

/-- The abstracted external dependencies of `blocked_gibbs`: jax key
splitting (`split k n i` is `jr.split(k, n)[i]`), the NIW prior type `αI`
and the two MNIW prior types `αD`, `αE` with their methods and conjugate
posterior updates, and the forward-filter/backward-sample routine. -/
structure GibbsEnv (κ αI αD αE : Type) (Dh Dobs Din T : ℕ) where
  split : κ → ℕ → ℕ → κ
  niw_log_prob : αI → Matrix (Fin Dh) (Fin Dh) ℚ × (Fin Dh → ℚ) → ℚ
  niw_mode : αI → Matrix (Fin Dh) (Fin Dh) ℚ × (Fin Dh → ℚ)
  niw_posterior_update : αI → InitStats Dh → αI
  niw_sample : αI → κ → Matrix (Fin Dh) (Fin Dh) ℚ × (Fin Dh → ℚ)
  mniw_dyn_log_prob :
    αD → Matrix (Fin Dh) (Fin Dh) ℚ × Matrix (Fin Dh) (Fin Dh ⊕ Fin Din) ℚ → ℚ
  mniw_dyn_mode : αD → Matrix (Fin Dh) (Fin Dh) ℚ × Matrix (Fin Dh) (Fin Dh ⊕ Fin Din) ℚ
  mniw_dyn_posterior_update : αD → DynStats Dh Din → αD
  mniw_dyn_sample : αD → κ → Matrix (Fin Dh) (Fin Dh) ℚ × Matrix (Fin Dh) (Fin Dh ⊕ Fin Din) ℚ
  mniw_ems_log_prob :
    αE → Matrix (Fin Dobs) (Fin Dobs) ℚ × Matrix (Fin Dobs) (Fin Dh ⊕ Fin Din) ℚ → ℚ
  mniw_ems_mode : αE → Matrix (Fin Dobs) (Fin Dobs) ℚ × Matrix (Fin Dobs) (Fin Dh ⊕ Fin Din) ℚ
  mniw_ems_posterior_update : αE → EmisStats Dh Din Dobs → αE
  mniw_ems_sample : αE → κ → Matrix (Fin Dobs) (Fin Dobs) ℚ × Matrix (Fin Dobs) (Fin Dh ⊕ Fin Din) ℚ
  lgssm_posterior_sample : κ → LGSSMParams Dh Dobs Din →
    Matrix (Fin (T + 1)) (Fin Dobs) ℚ → Matrix (Fin (T + 1)) (Fin Din) ℚ →
    ℚ × Matrix (Fin (T + 1)) (Fin Dh) ℚ

/-- Function `log_prior_prob`: log probability of the current parameters under the
three prior distributions, with the coefficient blocks re-stacked. -/
def log_prior_prob {κ αI αD αE : Type} {Dh Dobs Din T : ℕ}
    (env : GibbsEnv κ αI αD αE Dh Dobs Din T)
    (initial_prior : αI) (dynamics_prior : αD) (emission_prior : αE)
    (params : LGSSMParams Dh Dobs Din) : ℚ :=
  env.niw_log_prob initial_prior (params.initial_covariance, params.initial_mean)
    + env.mniw_dyn_log_prob dynamics_prior
        (params.dynamics_covariance,
          hstack params.dynamics_matrix params.dynamics_input_weights)
    + env.mniw_ems_log_prob emission_prior
        (params.emission_covariance,
          hstack params.emission_matrix params.emission_input_weights)

/-- Function `lgssm_params_sample`: draw parameters from the three conjugate
posteriors, splitting the input-weight columns off the drawn coefficient
matrices after the hidden-state columns. -/
def lgssm_params_sample {κ αI αD αE : Type} {Dh Dobs Din T : ℕ}
    (env : GibbsEnv κ αI αD αE Dh Dobs Din T)
    (initial_prior : αI) (dynamics_prior : αD) (emission_prior : αE) (rng : κ)
    (init_stats : InitStats Dh) (dynamics_stats : DynStats Dh Din)
    (emission_stats : EmisStats Dh Din Dobs) : LGSSMParams Dh Dobs Din :=
  let Sm := env.niw_sample (env.niw_posterior_update initial_prior init_stats)
    (env.split rng 3 0)
  let QFB := env.mniw_dyn_sample
    (env.mniw_dyn_posterior_update dynamics_prior dynamics_stats) (env.split rng 3 1)
  let RHD := env.mniw_ems_sample
    (env.mniw_ems_posterior_update emission_prior emission_stats) (env.split rng 3 2)
  { initial_mean := Sm.2
    initial_covariance := Sm.1
    dynamics_matrix := left_cols QFB.2
    dynamics_input_weights := right_cols QFB.2
    dynamics_covariance := QFB.1
    emission_matrix := left_cols RHD.2
    emission_input_weights := right_cols RHD.2
    emission_covariance := RHD.1 }

/-- Function `one_sample`: one complete sweep of the blocked Gibbs sampler.  The
carried state is `params_new`; the recorded output is the pair of the
starting parameters of the sweep and the scalar log probability. -/
def one_sample {κ αI αD αE : Type} {Dh Dobs Din T : ℕ}
    (env : GibbsEnv κ αI αD αE Dh Dobs Din T)
    (initial_prior : αI) (dynamics_prior : αD) (emission_prior : αE)
    (emissions : Matrix (Fin (T + 1)) (Fin Dobs) ℚ)
    (inputs : Matrix (Fin (T + 1)) (Fin Din) ℚ)
    (params : LGSSMParams Dh Dobs Din) (rng : κ) :
    LGSSMParams Dh Dobs Din × (LGSSMParams Dh Dobs Din × ℚ) :=
  let l_prior := log_prior_prob env initial_prior dynamics_prior emission_prior params
  let lls := env.lgssm_posterior_sample (env.split rng 2 0) params emissions inputs
  let stats := sufficient_stats_from_sample lls.2 inputs emissions
  let params_new := lgssm_params_sample env initial_prior dynamics_prior emission_prior
    (env.split rng 2 1) stats.1 stats.2.1 stats.2.2
  (params_new, (params, l_prior + lls.1))

/-- The sweep-zero parameters: the modes of the three priors, with the
input-weight columns split off after the hidden-state columns. -/
def gibbs_params0 {κ αI αD αE : Type} {Dh Dobs Din T : ℕ}
    (env : GibbsEnv κ αI αD αE Dh Dobs Din T)
    (initial_prior : αI) (dynamics_prior : αD) (emission_prior : αE) :
    LGSSMParams Dh Dobs Din :=
  let Sm := env.niw_mode initial_prior
  let QFB := env.mniw_dyn_mode dynamics_prior
  let RHD := env.mniw_ems_mode emission_prior
  { initial_mean := Sm.2
    initial_covariance := Sm.1
    dynamics_matrix := left_cols QFB.2
    dynamics_input_weights := right_cols QFB.2
    dynamics_covariance := QFB.1
    emission_matrix := left_cols RHD.2
    emission_input_weights := right_cols RHD.2
    emission_covariance := RHD.1 }

/-- Function `lax.scan`: thread a carry through a list, collecting the per-step
outputs. -/
def scanList {σ α β : Type} (f : σ → α → σ × β) : σ → List α → σ × List β
  | c, [] => (c, [])
  | c, a :: as =>
    let fb := f c a
    let rest := scanList f fb.1 as
    (rest.1, fb.2 :: rest.2)

/-- The per-sweep keys `jr.split(key, sample_size)`. -/
def gibbs_keys {κ αI αD αE : Type} {Dh Dobs Din T : ℕ}
    (env : GibbsEnv κ αI αD αE Dh Dobs Din T) (key : κ) (n : ℕ) : List κ :=
  (List.range n).map (env.split key n)

/-- Function `blocked_gibbs` (with the priors already resolved): initialize from the
prior modes, scan `one_sample` over the per-sweep keys, and return the
recorded log probabilities and parameter samples. -/
def blocked_gibbs {κ αI αD αE : Type} {Dh Dobs Din T : ℕ}
    (env : GibbsEnv κ αI αD αE Dh Dobs Din T) (key : κ) (sample_size : ℕ)
    (emissions : Matrix (Fin (T + 1)) (Fin Dobs) ℚ)
    (inputs : Matrix (Fin (T + 1)) (Fin Din) ℚ)
    (initial_prior : αI) (dynamics_prior : αD) (emission_prior : αE) :
    List ℚ × List (LGSSMParams Dh Dobs Din) :=
  let params_0 := gibbs_params0 env initial_prior dynamics_prior emission_prior
  let outs := (scanList
    (one_sample env initial_prior dynamics_prior emission_prior emissions inputs)
    params_0 (gibbs_keys env key sample_size)).2
  (outs.map Prod.snd, outs.map Prod.fst)

/-- Case `inputs=None`: the sampler substitutes a zero-column input array
`jnp.zeros((num_timesteps, 0))`, so the input dimension is 0. -/
def blocked_gibbs_no_inputs {κ αI αD αE : Type} {Dh Dobs T : ℕ}
    (env : GibbsEnv κ αI αD αE Dh Dobs 0 T) (key : κ) (sample_size : ℕ)
    (emissions : Matrix (Fin (T + 1)) (Fin Dobs) ℚ)
    (initial_prior : αI) (dynamics_prior : αD) (emission_prior : αE) :
    List ℚ × List (LGSSMParams Dh Dobs 0) :=
  blocked_gibbs env key sample_size emissions (0 : Matrix (Fin (T + 1)) (Fin 0) ℚ)
    initial_prior dynamics_prior emission_prior

/-- The carry entering step `i` of a scan. -/
def scan_carry {σ α β : Type} (f : σ → α → σ × β) (c : σ) (l : List α) (i : ℕ) : σ :=
  (l.take i).foldl (fun s a => (f s a).1) c

theorem scanList_length {σ α β : Type} (f : σ → α → σ × β) (c : σ) (l : List α) :
    ((scanList f c l).2).length = l.length := by
  induction l generalizing c with
  | nil => rfl
  | cons a as ih => simp [scanList, ih]

theorem scanList_getElem {σ α β : Type} (f : σ → α → σ × β) (c : σ) (l : List α)
    (i : ℕ) (h : i < l.length) :
    ((scanList f c l).2)[i]? = some (f (scan_carry f c l i) (l.get ⟨i, h⟩)).2 := by
  induction l generalizing c i with
  | nil => simp at h
  | cons a as ih =>
    cases i with
    | zero => simp [scanList, scan_carry]
    | succ i =>
      have hi : i < as.length := by
        simpa using Nat.lt_of_succ_lt_succ h
      have hrec := ih (f c a).1 i hi
      simp only [scanList, List.getElem?_cons_succ, scan_carry, List.take_succ_cons,
        List.foldl_cons, List.get_cons_succ] at hrec ⊢
      exact hrec

/-- The parameter state entering sweep `i` (sweep 0 starts from the prior
modes; sweep `i+1` starts from the sample drawn in sweep `i`). -/
def gibbs_carry {κ αI αD αE : Type} {Dh Dobs Din T : ℕ}
    (env : GibbsEnv κ αI αD αE Dh Dobs Din T)
    (initial_prior : αI) (dynamics_prior : αD) (emission_prior : αE)
    (emissions : Matrix (Fin (T + 1)) (Fin Dobs) ℚ)
    (inputs : Matrix (Fin (T + 1)) (Fin Din) ℚ) (key : κ) (n i : ℕ) :
    LGSSMParams Dh Dobs Din :=
  scan_carry (one_sample env initial_prior dynamics_prior emission_prior emissions inputs)
    (gibbs_params0 env initial_prior dynamics_prior emission_prior)
    (gibbs_keys env key n) i

/-- The parameter sample drawn by the conjugate-posterior draws of sweep `i`
(the `params_new` of that sweep). -/
def sweep_draw {κ αI αD αE : Type} {Dh Dobs Din T : ℕ}
    (env : GibbsEnv κ αI αD αE Dh Dobs Din T)
    (initial_prior : αI) (dynamics_prior : αD) (emission_prior : αE)
    (emissions : Matrix (Fin (T + 1)) (Fin Dobs) ℚ)
    (inputs : Matrix (Fin (T + 1)) (Fin Din) ℚ) (key : κ) (n i : ℕ) :
    LGSSMParams Dh Dobs Din :=
  (one_sample env initial_prior dynamics_prior emission_prior emissions inputs
    (gibbs_carry env initial_prior dynamics_prior emission_prior emissions inputs key n i)
    (env.split key n i)).1

/-- C1 (amended): the i-th recorded entry of the returned parameter-sample
sequence is the parameter state entering sweep i (the prior-mode
initialization for i = 0 and the sample drawn in sweep i-1 afterwards), not
the sample drawn in sweep i; the i-th recorded log-probability is the log
prior density of those starting parameters plus the marginal log-likelihood
of the trajectory sampled in sweep i. -/
theorem blocked_gibbs_records {κ αI αD αE : Type} {Dh Dobs Din T : ℕ}
    (env : GibbsEnv κ αI αD αE Dh Dobs Din T)
    (ip : αI) (dp : αD) (ep : αE) (key : κ) (n : ℕ)
    (emissions : Matrix (Fin (T + 1)) (Fin Dobs) ℚ)
    (inputs : Matrix (Fin (T + 1)) (Fin Din) ℚ) (i : ℕ) (h : i < n) :
    (blocked_gibbs env key n emissions inputs ip dp ep).2[i]?
      = some (gibbs_carry env ip dp ep emissions inputs key n i) ∧
    (blocked_gibbs env key n emissions inputs ip dp ep).1[i]?
      = some (log_prior_prob env ip dp ep
            (gibbs_carry env ip dp ep emissions inputs key n i)
          + (env.lgssm_posterior_sample (env.split (env.split key n i) 2 0)
              (gibbs_carry env ip dp ep emissions inputs key n i)
              emissions inputs).1) := by
  have hlen : i < (gibbs_keys env key n).length := by
    simpa [gibbs_keys] using h
  have hget : (gibbs_keys env key n).get ⟨i, hlen⟩ = env.split key n i := by
    simp [gibbs_keys]
  have hg := scanList_getElem
    (one_sample env ip dp ep emissions inputs)
    (gibbs_params0 env ip dp ep) (gibbs_keys env key n) i hlen
  rw [hget] at hg
  constructor
  · simp only [blocked_gibbs]
    rw [List.getElem?_map, hg]
    rfl
  · simp only [blocked_gibbs]
    rw [List.getElem?_map, hg]
    rfl

/-- A concrete environment for the evaluation of the sampler: all key
splitting is trivial, the prior modes are zero, but the NIW posterior draw
has initial mean 1, so a drawn sample differs from the starting parameters of a sweep. -/
def cenv : GibbsEnv Unit Unit Unit Unit 1 1 0 0 where
  split := fun _ _ _ => ()
  niw_log_prob := fun _ _ => 0
  niw_mode := fun _ => (0, fun _ => 0)
  niw_posterior_update := fun p _ => p
  niw_sample := fun _ _ => (0, fun _ => 1)
  mniw_dyn_log_prob := fun _ _ => 0
  mniw_dyn_mode := fun _ => (0, 0)
  mniw_dyn_posterior_update := fun p _ => p
  mniw_dyn_sample := fun _ _ => (0, 0)
  mniw_ems_log_prob := fun _ _ => 0
  mniw_ems_mode := fun _ => (0, 0)
  mniw_ems_posterior_update := fun p _ => p
  mniw_ems_sample := fun _ _ => (0, 0)
  lgssm_posterior_sample := fun _ _ _ _ => (0, 0)

/-- Concrete emissions for the sampler evaluation. -/
def cemissions : Matrix (Fin 1) (Fin 1) ℚ := 0

/-- Concrete (zero-column) inputs for the sampler evaluation. -/
def cinputs : Matrix (Fin 1) (Fin 0) ℚ := 0

/-- C1 counterexample: with one sweep, the recorded parameter entry is the
starting parameters of the sweep (the prior modes), not the newly drawn parameter
sample of that sweep, which differs from it. -/
theorem blocked_gibbs_records_counterexample :
    (blocked_gibbs cenv () 1 cemissions cinputs () () ()).2[0]?
      ≠ some (sweep_draw cenv () () () cemissions cinputs () 1 0) := by
  intro hcontra
  have h1 : (blocked_gibbs cenv () 1 cemissions cinputs () () ()).2[0]?
      = some (gibbs_params0 cenv () () ()) := rfl
  rw [h1] at hcontra
  have h2 := Option.some.inj hcontra
  have hL : (gibbs_params0 cenv () () ()).initial_mean 0 = 0 := rfl
  have hR : (sweep_draw cenv () () () cemissions cinputs () 1 0).initial_mean 0 = 1 := rfl
  have hbad : (0 : ℚ) = 1 := by rw [← hL, h2, hR]
  exact absurd hbad (by norm_num)

/-- Witness for C1 at a concrete input. -/
theorem blocked_gibbs_records_witness :
    (blocked_gibbs cenv () 1 cemissions cinputs () () ()).2[0]?
      = some (gibbs_carry cenv () () () cemissions cinputs () 1 0) ∧
    (blocked_gibbs cenv () 1 cemissions cinputs () () ()).1[0]?
      = some (log_prior_prob cenv () () ()
            (gibbs_carry cenv () () () cemissions cinputs () 1 0)
          + (cenv.lgssm_posterior_sample (cenv.split (cenv.split () 1 0) 2 0)
              (gibbs_carry cenv () () () cemissions cinputs () 1 0)
              cemissions cinputs).1) :=
  blocked_gibbs_records cenv () () () () 1 cemissions cinputs 0 (by decide)

/-- C6: for every invocation of the blocked Gibbs sampler (with at least one
sweep), the parameters carried into the first sweep — the first recorded
entry — are the modes of the three prior distributions: the NIW mode for
initial covariance/mean and the MNIW modes for the dynamics and emission
blocks, with the input-weight columns split off after the hidden-state
columns; no random draw is involved. -/
theorem blocked_gibbs_inits_at_prior_modes {κ αI αD αE : Type} {Dh Dobs Din T : ℕ}
    (env : GibbsEnv κ αI αD αE Dh Dobs Din T)
    (ip : αI) (dp : αD) (ep : αE) (key : κ) (n : ℕ)
    (emissions : Matrix (Fin (T + 1)) (Fin Dobs) ℚ)
    (inputs : Matrix (Fin (T + 1)) (Fin Din) ℚ) (h : 0 < n) :
    (blocked_gibbs env key n emissions inputs ip dp ep).2[0]?
      = some { initial_mean := (env.niw_mode ip).2
               initial_covariance := (env.niw_mode ip).1
               dynamics_matrix := left_cols (env.mniw_dyn_mode dp).2
               dynamics_input_weights := right_cols (env.mniw_dyn_mode dp).2
               dynamics_covariance := (env.mniw_dyn_mode dp).1
               emission_matrix := left_cols (env.mniw_ems_mode ep).2
               emission_input_weights := right_cols (env.mniw_ems_mode ep).2
               emission_covariance := (env.mniw_ems_mode ep).1 } := by
  have hlen : 0 < (gibbs_keys env key n).length := by
    simpa [gibbs_keys] using h
  have hg := scanList_getElem (one_sample env ip dp ep emissions inputs)
    (gibbs_params0 env ip dp ep) (gibbs_keys env key n) 0 hlen
  simp only [blocked_gibbs]
  rw [List.getElem?_map, hg]
  rfl

/-- Witness for C6 at a concrete input. -/
theorem blocked_gibbs_inits_at_prior_modes_witness :
    (blocked_gibbs cenv () 1 cemissions cinputs () () ()).2[0]?
      = some { initial_mean := (cenv.niw_mode ()).2
               initial_covariance := (cenv.niw_mode ()).1
               dynamics_matrix := left_cols (cenv.mniw_dyn_mode ()).2
               dynamics_input_weights := right_cols (cenv.mniw_dyn_mode ()).2
               dynamics_covariance := (cenv.mniw_dyn_mode ()).1
               emission_matrix := left_cols (cenv.mniw_ems_mode ()).2
               emission_input_weights := right_cols (cenv.mniw_ems_mode ()).2
               emission_covariance := (cenv.mniw_ems_mode ()).1 } :=
  blocked_gibbs_inits_at_prior_modes cenv () () () () 1 cemissions cinputs (by decide)

/-- C4 counterexample: for a sampled trajectory of length 2, the count
component of the initial-state statistics is 1, not the trajectory length
2. -/
theorem stats_counts_counterexample :
    (sufficient_stats_from_sample (0 : Matrix (Fin (1 + 1)) (Fin 1) ℚ)
      (0 : Matrix (Fin (1 + 1)) (Fin 0) ℚ)
      (0 : Matrix (Fin (1 + 1)) (Fin 1) ℚ)).1.count ≠ 2 := by decide

/-- C4 (amended): for every sampled latent trajectory of length `T+1`, the
count of the emission statistics is the number of timesteps `T+1`, the count
of the dynamics statistics is `T` (timesteps minus one), and the count of
the initial-state statistics is 1 (not the trajectory length). -/
theorem stats_counts {Dh Din Dobs T : ℕ}
    (states : Matrix (Fin (T + 1)) (Fin Dh) ℚ)
    (inputs : Matrix (Fin (T + 1)) (Fin Din) ℚ)
    (emissions : Matrix (Fin (T + 1)) (Fin Dobs) ℚ) :
    (sufficient_stats_from_sample states inputs emissions).2.2.count = T + 1 ∧
    (sufficient_stats_from_sample states inputs emissions).2.1.count = (T + 1) - 1 ∧
    (sufficient_stats_from_sample states inputs emissions).1.count = 1 :=
  ⟨rfl, rfl, rfl⟩

/-- C9: for every sampled latent trajectory and input sequence, the block
second-moment matrices `sum_zzT` (emission statistics) and `sum_zpzpT`
(dynamics statistics) are symmetric and positive semi-definite. -/
theorem stats_blocks_psd {Dh Din Dobs T : ℕ}
    (states : Matrix (Fin (T + 1)) (Fin Dh) ℚ)
    (inputs : Matrix (Fin (T + 1)) (Fin Din) ℚ)
    (emissions : Matrix (Fin (T + 1)) (Fin Dobs) ℚ) :
    IsPSD (sufficient_stats_from_sample states inputs emissions).2.2.sum_zzT ∧
    IsPSD (sufficient_stats_from_sample states inputs emissions).2.1.sum_zpzpT := by
  constructor
  · have hb : (sufficient_stats_from_sample states inputs emissions).2.2.sum_zzT
        = (hstack states inputs).transpose * hstack states inputs := by
      ext a b
      cases a <;> cases b <;>
        simp [sufficient_stats_from_sample, hstack, Matrix.mul_apply,
          Matrix.fromBlocks, Matrix.transpose_apply]
    rw [hb]
    exact isPSD_gram _
  · have hb : (sufficient_stats_from_sample states inputs emissions).2.1.sum_zpzpT
        = (hstack (Matrix.of fun t : Fin T => states t.castSucc)
              (Matrix.of fun t => inputs t.castSucc)).transpose
          * hstack (Matrix.of fun t : Fin T => states t.castSucc)
              (Matrix.of fun t => inputs t.castSucc) := by
      ext a b
      cases a <;> cases b <;>
        simp [sufficient_stats_from_sample, hstack, Matrix.mul_apply,
          Matrix.fromBlocks, Matrix.transpose_apply]
    rw [hb]
    exact isPSD_gram _

/-- C10: calling the sampler with `inputs=None` behaves exactly as passing a
zero-column input array of shape `(num_timesteps, 0)` (the input dimension
is 0), and the dynamics and emission input weights of every returned
parameter sample are (empty) zero-column matrices. -/
theorem blocked_gibbs_none_inputs_spec {κ αI αD αE : Type} {Dh Dobs T : ℕ}
    (env : GibbsEnv κ αI αD αE Dh Dobs 0 T) (key : κ) (n : ℕ)
    (emissions : Matrix (Fin (T + 1)) (Fin Dobs) ℚ) (ip : αI) (dp : αD) (ep : αE) :
    (∀ inputs0 : Matrix (Fin (T + 1)) (Fin 0) ℚ,
      blocked_gibbs_no_inputs env key n emissions ip dp ep
        = blocked_gibbs env key n emissions inputs0 ip dp ep) ∧
    ∀ p ∈ (blocked_gibbs_no_inputs env key n emissions ip dp ep).2,
      p.dynamics_input_weights = 0 ∧ p.emission_input_weights = 0 := by
  constructor
  · intro inputs0
    have h0 : inputs0 = 0 := by
      ext i j
      exact j.elim0
    rw [h0]
    rfl
  · intro p _
    constructor
    · ext i j
      exact j.elim0
    · ext i j
      exact j.elim0

/-- Witness for C10 at a concrete input. -/
theorem blocked_gibbs_none_inputs_spec_witness :
    gibbs_params0 cenv () () ()
        ∈ (blocked_gibbs_no_inputs cenv () 1 cemissions () () ()).2 ∧
    ((gibbs_params0 cenv () () ()).dynamics_input_weights = 0 ∧
      (gibbs_params0 cenv () () ()).emission_input_weights = 0) := by
  have hmem : gibbs_params0 cenv () () ()
      ∈ (blocked_gibbs_no_inputs cenv () 1 cemissions () () ()).2 := by
    have hlist : (blocked_gibbs_no_inputs cenv () 1 cemissions () () ()).2
        = [gibbs_params0 cenv () () ()] := rfl
    rw [hlist]
    exact List.mem_singleton.mpr rfl
  exact ⟨hmem,
    (blocked_gibbs_none_inputs_spec cenv () 1 cemissions () () ()).2 _ hmem⟩
